import Mathlib

/-!
Verification of the move-selection engine of the RustChessAi repository
(`src/lib.rs`).  The search core — `negamax_ab`, `quiescence_search`,
`stand_pat`, `choose_best_move_ab` and the AI step of `run_app` — is embedded
shallowly.  The chess crate is the external Rules Provider; it is modelled by
an abstract record of the exact queries the source makes of it (`Rules`).
Machine integers (`i32`) are modelled as `Int`; the absence of overflow on the
values the program actually computes is proved separately.
-/

namespace RustChessAi

/-- Piece colors, mirroring the chess crate's `Color` (aliased `ChessColor` in the source). -/
inductive ChessColor where
  | White
  | Black
deriving DecidableEq, Repr

/-- Piece kinds of the chess crate. -/
inductive Piece where
  | Pawn
  | Knight
  | Bishop
  | Rook
  | Queen
  | King
deriving DecidableEq, Repr

/-- Terminal classification of a board, as reported by the Rules Provider.
The source matches `Checkmate`, `Stalemate` and a wildcard arm; `OtherDraw`
exercises the wildcard. -/
inductive BoardStatus where
  | Ongoing
  | Checkmate
  | Stalemate
  | OtherDraw
deriving DecidableEq, Repr

/-- The difficulty setting selectable in the menu (`Difficulty` in the source). -/
inductive Difficulty where
  | Easy
  | Medium
  | Hard
deriving DecidableEq, Repr

/-- A move: source square, destination square and optional promotion piece
(`ChessMove::new(source, dest, promotion)`).  Squares are indices 0..63 with
rank `sq / 8` and file `sq % 8`, as in the chess crate. -/
structure Move where
  src : Nat
  dst : Nat
  promo : Option Piece
deriving DecidableEq, Repr

/-- The Rules Provider interface: exactly the queries the search core makes of
the chess crate.  `pieceAt` combines `piece_on`/`color_on`; `checkersCount` is
`board.checkers().popcnt()`. -/
structure Rules (B : Type) where
  status : B → BoardStatus
  legalMoves : B → List Move
  makeMove : B → Move → B
  pieceAt : B → Nat → Option (Piece × ChessColor)
  sideToMove : B → ChessColor
  checkersCount : B → Nat

/-- Lower bound of `i32`. -/
def i32Min : Int := -2147483648

/-- Upper bound of `i32`. -/
def i32Max : Int := 2147483647

/-- `const MAX_DEPTH: i32 = 5`. -/
def MAX_DEPTH : Nat := 5

/-- The contribution of one square to the `stand_pat` evaluation: the body of
the `for sq in ALL_SQUARES` loop of `stand_pat` in the source (knights and
bishops off the back rank, rooks off the back rank, king on a castled file). -/
def square_bonus {B : Type} (r : Rules B) (b : B) (sq : Nat) : Int :=
  match r.pieceAt b sq with
  | none => 0
  | some (p, c) =>
    match c, p with
    | ChessColor.White, Piece.Knight => if 1 < sq / 8 then 10 else 0
    | ChessColor.White, Piece.Bishop => if 1 < sq / 8 then 10 else 0
    | ChessColor.White, Piece.Rook => if 0 < sq / 8 then 5 else 0
    | ChessColor.White, Piece.King => if sq % 8 = 6 ∨ sq % 8 = 2 then 20 else 0
    | ChessColor.Black, Piece.Knight => if sq / 8 < 6 then -10 else 0
    | ChessColor.Black, Piece.Bishop => if sq / 8 < 6 then -10 else 0
    | ChessColor.Black, Piece.Rook => if sq / 8 < 7 then -5 else 0
    | ChessColor.Black, Piece.King => if sq % 8 = 6 ∨ sq % 8 = 2 then -20 else 0
    | _, _ => 0

/-- `stand_pat(board, color)`: sum of the square bonuses over the 64 squares,
multiplied by the perspective sign. -/
def stand_pat {B : Type} (r : Rules B) (b : B) (color : Int) : Int :=
  color * (List.range 64).foldl (fun s sq => s + square_bonus r b sq) 0

/-- The sort key computed by the closures passed to `sort_by_key` in
`negamax_ab`, `quiescence_search` and `choose_best_move_ab` (all three are
identical): captures −10000, promotions −8000, checks −5000, summed. -/
def move_priority {B : Type} (r : Rules B) (b : B) (mv : Move) : Int :=
  (if (r.pieceAt b mv.dst).isSome then -10000 else 0) +
    (if mv.promo.isSome then -8000 else 0) +
    (if 0 < r.checkersCount (r.makeMove b mv) then -5000 else 0)

/-- Insert a move into an already key-sorted list, after every element of
smaller or equal key (the stable insertion step). -/
def insertByKey (key : Move → Int) (m : Move) : List Move → List Move
  | [] => [m]
  | x :: xs => if key m < key x then m :: x :: xs else x :: insertByKey key m xs

/-- Stable sort by key, the semantics of Rust's `sort_by_key` (which is
specified stable; any stable sort by key has this same, unique output). -/
def sortByKey (key : Move → Int) (l : List Move) : List Move :=
  l.foldl (fun acc m => insertByKey key m acc) []

/-- The capture/promotion filter applied to the legal moves in
`quiescence_search` (the `captures` vector of the source). -/
def captures_of {B : Type} (r : Rules B) (b : B) : List Move :=
  (r.legalMoves b).filter fun mv => (r.pieceAt b mv.dst).isSome || mv.promo.isSome

/-- The `for mv in captures` loop of `quiescence_search`: `child mv a` is the
negated recursive score of the move played with running alpha `a`; a score
reaching `beta` returns `beta` at once, otherwise alpha is raised and the loop
continues, returning the final alpha. -/
def qList (child : Move → Int → Int) (beta : Int) : List Move → Int → Int
  | [], alpha => alpha
  | mv :: ms, alpha =>
    let score := child mv alpha
    if beta ≤ score then beta
    else qList child beta ms (if alpha < score then score else alpha)

/-- The `for mv in moves` loop of `negamax_ab`: folds the best (fail-soft)
score and the running alpha, breaking on `alpha >= beta` and returning the
best score. -/
def nList (child : Move → Int → Int) (beta : Int) : List Move → Int → Int → Int
  | [], best, _ => best
  | mv :: ms, best, alpha =>
    let score := child mv alpha
    let best2 := max best score
    let alpha2 := max alpha score
    if beta ≤ alpha2 then best2 else nList child beta ms best2 alpha2

/-- The root loop of `choose_best_move_ab`: keeps the first move whose score
strictly exceeds the best seen so far (`if score > best_score`). -/
def cList (score : Move → Int) : List Move → Option Move × Int → Option Move
  | [], st => st.1
  | mv :: ms, st =>
    let s := score mv
    if st.2 < s then cList score ms (some mv, s) else cList score ms st

/-- `quiescence_search(board, alpha, beta, color)`.  The Rust recursion
terminates because every explored move is a capture or a promotion, so chains
are finite; the embedding makes that bound explicit as `fuel` (exhausted fuel
explores no further captures).  The terminal short-circuit and the stand-pat
cutoff are checked before any fuel is consumed, exactly as in the source. -/
def quiescence_search {B : Type} (r : Rules B) :
    Nat → B → Int → Int → Int → Int
  | fuel, b, alpha, beta, color =>
    match r.status b with
    | BoardStatus.Checkmate => -color * 1000000
    | BoardStatus.Stalemate => 0
    | BoardStatus.OtherDraw => 0
    | BoardStatus.Ongoing =>
      let sp := stand_pat r b color
      if beta ≤ sp then beta
      else
        let alpha1 := if alpha < sp then sp else alpha
        match fuel with
        | 0 => alpha1
        | fuel + 1 =>
          qList
            (fun mv a =>
              -(quiescence_search r fuel (r.makeMove b mv) (-beta) (-a) (-color)))
            beta (sortByKey (move_priority r b) (captures_of r b)) alpha1

/-- `negamax_ab(board, depth, alpha, beta, color)`.  Terminal status is
checked first; at depth 0 the result is `color * quiescence_search(...)`;
otherwise the ordered legal moves are searched at `depth - 1` with negated,
swapped bounds.  Depth is a natural number: the program only ever invokes the
search with nonnegative depths (`MAX_DEPTH = 5` at the root). -/
def negamax_ab {B : Type} (r : Rules B) (qf : Nat) :
    Nat → B → Int → Int → Int → Int
  | depth, b, alpha, beta, color =>
    match r.status b with
    | BoardStatus.Checkmate => -color * 1000000
    | BoardStatus.Stalemate => 0
    | BoardStatus.OtherDraw => 0
    | BoardStatus.Ongoing =>
      match depth with
      | 0 => color * quiescence_search r qf b alpha beta color
      | depth + 1 =>
        nList
          (fun mv a =>
            -(negamax_ab r qf depth (r.makeMove b mv) (-beta) (-a) (-color)))
          beta (sortByKey (move_priority r b) (r.legalMoves b)) i32Min alpha

/-- The sign computed inside the root loop:
`if board.side_to_move() == White { 1 } else { -1 }`. -/
def root_color {B : Type} (r : Rules B) (b : B) : Int :=
  if r.sideToMove b = ChessColor.White then 1 else -1

/-- The score of one root candidate in `choose_best_move_ab`:
`-negamax_ab(&next, depth - 1, i32::MIN + 1, i32::MAX, -color)`. -/
def root_score {B : Type} (r : Rules B) (qf : Nat) (b : B) (depth : Nat)
    (mv : Move) : Int :=
  -(negamax_ab r qf (depth - 1) (r.makeMove b mv) (i32Min + 1) i32Max
      (-(root_color r b)))

/-- `choose_best_move_ab(board, depth)`: none when no legal moves exist,
otherwise the first strict maximizer of the root scores over the ordered
moves. -/
def choose_best_move_ab {B : Type} (r : Rules B) (qf : Nat) (b : B)
    (depth : Nat) : Option Move :=
  let moves := r.legalMoves b
  if moves.isEmpty then none
  else cList (root_score r qf b depth) (sortByKey (move_priority r b) moves)
    (none, i32Min)

/-- The AI branch of `run_app` (the `side_to_move == Black && !ai_moved`,
status-Ongoing arm): the reverse of the last history move is computed as
`banned` but never passed on; the depth is the constant `MAX_DEPTH`; the
difficulty is not consulted. -/
def ai_select_move {B : Type} (r : Rules B) (qf : Nat) (b : B)
    (history : List Move) (_diff : Difficulty) : Option Move :=
  let _banned : Option Move :=
    history.getLast?.map fun last => Move.mk last.dst last.src last.promo
  let depth := MAX_DEPTH
  choose_best_move_ab r qf b depth

/-! Spec-side comparison definitions.  These follow the wording of the spec
(sections 4.3, 4.4 and 8) and exist to be compared against the translations
above. -/

/-- The loop of the spec's quiescence description (4.4): examine the ordered
noisy moves, recursing with negated/swapped bounds, apply the beta-cutoff rule
of 4.3, raise alpha, return the final alpha. -/
def specLoop (child : Move → Int → Int) (beta : Int) : List Move → Int → Int
  | [], alpha => alpha
  | mv :: ms, alpha =>
    if beta ≤ child mv alpha then beta
    else specLoop child beta ms (max alpha (child mv alpha))

/-- Quiescence as described by spec 4.4: same terminal short-circuit as 4.3,
return `beta` when the stand-pat evaluation already reaches it, otherwise
raise alpha to the stand-pat value and examine only the ordered capture and
promotion moves. -/
def quiescenceSpec {B : Type} (r : Rules B) : Nat → B → Int → Int → Int → Int
  | fuel, b, alpha, beta, color =>
    match r.status b with
    | BoardStatus.Checkmate => -color * 1000000
    | BoardStatus.Stalemate => 0
    | BoardStatus.OtherDraw => 0
    | BoardStatus.Ongoing =>
      let standPat := stand_pat r b color
      if standPat ≥ beta then beta
      else
        match fuel with
        | 0 => max alpha standPat
        | fuel + 1 =>
          specLoop
            (fun mv a =>
              -(quiescenceSpec r fuel (r.makeMove b mv) (-beta) (-a) (-color)))
            beta (sortByKey (move_priority r b) (captures_of r b))
            (max alpha standPat)

/-- The bound-independent value of the quiescence pass: the same terminal
scoring and stand-pat baseline, maximizing over the noisy moves with no
(alpha, beta) window at all.  This is the "same leaf evaluation" of the
unpruned comparison search of spec section 8. -/
def qVal {B : Type} (r : Rules B) : Nat → B → Int → Int
  | fuel, b, color =>
    match r.status b with
    | BoardStatus.Checkmate => -color * 1000000
    | BoardStatus.Stalemate => 0
    | BoardStatus.OtherDraw => 0
    | BoardStatus.Ongoing =>
      let sp := stand_pat r b color
      match fuel with
      | 0 => sp
      | fuel + 1 =>
        (sortByKey (move_priority r b) (captures_of r b)).foldl
          (fun acc mv => max acc (-(qVal r fuel (r.makeMove b mv) (-color)))) sp

/-- The unpruned, full-width negamax of spec section 8: the same game tree,
the same terminal scoring and the same leaf evaluation shape
(`color * value`), but no (alpha, beta) window, no move ordering and no
cutoffs. -/
def negamax_plain {B : Type} (r : Rules B) (qf : Nat) : Nat → B → Int → Int
  | depth, b, color =>
    match r.status b with
    | BoardStatus.Checkmate => -color * 1000000
    | BoardStatus.Stalemate => 0
    | BoardStatus.OtherDraw => 0
    | BoardStatus.Ongoing =>
      match depth with
      | 0 => color * qVal r qf b color
      | depth + 1 =>
        (r.legalMoves b).foldl
          (fun best mv =>
            max best (-(negamax_plain r qf depth (r.makeMove b mv) (-color))))
          i32Min

/-- Root score of the unpruned comparison search. -/
def plain_score {B : Type} (r : Rules B) (qf : Nat) (b : B) (depth : Nat)
    (mv : Move) : Int :=
  -(negamax_plain r qf (depth - 1) (r.makeMove b mv) (-(root_color r b)))

/-- Root chooser of the unpruned comparison search: same first-strict-
maximizer rule, but over the unordered legal moves with unpruned scores. -/
def choose_best_plain {B : Type} (r : Rules B) (qf : Nat) (b : B)
    (depth : Nat) : Option Move :=
  let moves := r.legalMoves b
  if moves.isEmpty then none
  else cList (plain_score r qf b depth) moves (none, i32Min)

/-- The recursive search with a per-move depth-extension hook: a child of a
node at remaining depth `d + 1` is searched at remaining depth `d + ext b mv`
(that is, `depth - 1 + ext`).  With a nonzero hook the depth alone no longer
decreases, so the total recursion is bounded by `fuel` (exhausted fuel falls
back to the depth-0 leaf evaluation). -/
def negamaxWith {B : Type} (r : Rules B) (qf : Nat) (ext : B → Move → Nat) :
    Nat → Nat → B → Int → Int → Int → Int
  | fuel, depth, b, alpha, beta, color =>
    match r.status b with
    | BoardStatus.Checkmate => -color * 1000000
    | BoardStatus.Stalemate => 0
    | BoardStatus.OtherDraw => 0
    | BoardStatus.Ongoing =>
      match depth with
      | 0 => color * quiescence_search r qf b alpha beta color
      | depth + 1 =>
        match fuel with
        | 0 => color * quiescence_search r qf b alpha beta color
        | fuel + 1 =>
          nList
            (fun mv a =>
              -(negamaxWith r qf ext fuel (depth + ext b mv) (r.makeMove b mv)
                  (-beta) (-a) (-color)))
            beta (sortByKey (move_priority r b) (r.legalMoves b)) i32Min alpha

/-- The extension hook claimed by spec 4.3 step 4: one extra ply when the move
is a capture, a promotion, or delivers check in the resulting position. -/
def ext_noisy {B : Type} (r : Rules B) : B → Move → Nat := fun b mv =>
  if (r.pieceAt b mv.dst).isSome ∨ mv.promo.isSome ∨
      0 < r.checkersCount (r.makeMove b mv) then 1
  else 0

/-- The trivial extension hook: no move receives extra depth. -/
def ext_zero {B : Type} : B → Move → Nat := fun _ _ => 0

/-- The ambient process environment available to `run_app`: the thread-local
random stream (`thread_rng`) and the wall clock (`Instant`). -/
structure Env where
  randSeq : Nat → Nat
  clockMs : Nat

/-- The AI branch of `run_app` with the ambient environment made explicit:
the branch samples no randomness and reads no clock, so the environment is
never consulted. -/
def ai_select_move_in {B : Type} (_env : Env) (r : Rules B) (qf : Nat) (b : B)
    (history : List Move) (_diff : Difficulty) : Option Move :=
  let _banned : Option Move :=
    history.getLast?.map fun last => Move.mk last.dst last.src last.promo
  let depth := MAX_DEPTH
  choose_best_move_ab r qf b depth

/-! Concrete finite instances of the Rules Provider interface, used to
evaluate the search on explicit inputs.  Boards are natural numbers; every
board not listed is a terminal `OtherDraw`, so each game is finite. -/

/-- Statuses of `gameT`: one checkmate, one stalemate, one other draw. -/
def gameTStatus : Nat → BoardStatus
  | 0 => BoardStatus.Checkmate
  | 1 => BoardStatus.Stalemate
  | _ => BoardStatus.OtherDraw

/-- A game made only of terminal boards. -/
def gameT : Rules Nat where
  status := gameTStatus
  legalMoves := fun _ => []
  makeMove := fun _ m => m.dst
  pieceAt := fun _ _ => none
  sideToMove := fun _ => ChessColor.White
  checkersCount := fun _ => 0

/-- Statuses of `gameW`: an ongoing root whose two moves lead to a stalemate
and to a checkmate. -/
def gameWStatus : Nat → BoardStatus
  | 0 => BoardStatus.Ongoing
  | 1 => BoardStatus.Stalemate
  | 2 => BoardStatus.Checkmate
  | _ => BoardStatus.OtherDraw

/-- Moves of `gameW`. -/
def gameWMoves : Nat → List Move
  | 0 => [Move.mk 0 1 none, Move.mk 0 2 none]
  | _ => []

/-- A small game with one ongoing board: White to move chooses between a
stalemate (score 0) and being checkmated (score −1000000). -/
def gameW : Rules Nat where
  status := gameWStatus
  legalMoves := gameWMoves
  makeMove := fun _ m => m.dst
  pieceAt := fun _ _ => none
  sideToMove := fun _ => ChessColor.White
  checkersCount := fun _ => 0

/-- A game whose only legal root move is the exact reverse of the last played
move of the history `[Move.mk 8 16 none]`. -/
def gameRev : Rules Nat where
  status := fun b => if b = 0 then BoardStatus.Ongoing else BoardStatus.OtherDraw
  legalMoves := fun b => if b = 0 then [Move.mk 16 8 none] else []
  makeMove := fun _ m => m.dst
  pieceAt := fun _ _ => none
  sideToMove := fun _ => ChessColor.Black
  checkersCount := fun _ => 0

/-- Statuses of `gameDiff`: the line through board 1 only reveals a checkmate
four plies down, the move to board 2 is an immediate stalemate. -/
def gameDiffStatus : Nat → BoardStatus
  | 0 => BoardStatus.Ongoing
  | 1 => BoardStatus.Ongoing
  | 2 => BoardStatus.Stalemate
  | 4 => BoardStatus.Ongoing
  | 5 => BoardStatus.Ongoing
  | 6 => BoardStatus.Checkmate
  | _ => BoardStatus.OtherDraw

/-- Moves of `gameDiff`. -/
def gameDiffMoves : Nat → List Move
  | 0 => [Move.mk 0 1 none, Move.mk 0 2 none]
  | 1 => [Move.mk 1 4 none]
  | 4 => [Move.mk 4 5 none]
  | 5 => [Move.mk 5 6 none]
  | _ => []

/-- A game on which a depth-2 search and a depth-5 search choose different
root moves: the forced mate behind board 1 is beyond the depth-2 horizon. -/
def gameDiff : Rules Nat where
  status := gameDiffStatus
  legalMoves := gameDiffMoves
  makeMove := fun _ m => m.dst
  pieceAt := fun _ _ => none
  sideToMove := fun _ => ChessColor.White
  checkersCount := fun _ => 0

/-- Statuses of `gameExt`. -/
def gameExtStatus : Nat → BoardStatus
  | 0 => BoardStatus.Ongoing
  | 1 => BoardStatus.Ongoing
  | 2 => BoardStatus.Checkmate
  | _ => BoardStatus.OtherDraw

/-- Moves of `gameExt`. -/
def gameExtMoves : Nat → List Move
  | 0 => [Move.mk 0 1 none]
  | 1 => [Move.mk 1 2 none]
  | _ => []

/-- A game whose root move is a capture (a black pawn sits on its destination
square) leading to a board with a quiet move into a checkmate: searching the
capture one ply deeper changes the root value. -/
def gameExt : Rules Nat where
  status := gameExtStatus
  legalMoves := gameExtMoves
  makeMove := fun _ m => m.dst
  pieceAt := fun b sq =>
    if b = 0 ∧ sq = 1 then some (Piece.Pawn, ChessColor.Black) else none
  sideToMove := fun _ => ChessColor.White
  checkersCount := fun _ => 0

/-- Statuses of `gamePrune`. -/
def gamePruneStatus : Nat → BoardStatus
  | 0 => BoardStatus.Ongoing
  | 1 => BoardStatus.Ongoing
  | 2 => BoardStatus.Ongoing
  | 3 => BoardStatus.Ongoing
  | 4 => BoardStatus.Ongoing
  | 5 => BoardStatus.Ongoing
  | _ => BoardStatus.OtherDraw

/-- Moves of `gamePrune`. -/
def gamePruneMoves : Nat → List Move
  | 0 => [Move.mk 0 1 none, Move.mk 0 2 none]
  | 1 => [Move.mk 1 3 none, Move.mk 1 4 none]
  | 2 => [Move.mk 2 5 none]
  | _ => []

/-- Piece placement of `gamePrune`: boards 4 and 5 hold developed black
knights, giving them stand-pat values −50 and −10 for White. -/
def gamePrunePieces : Nat → Nat → Option (Piece × ChessColor)
  | 4, 16 => some (Piece.Knight, ChessColor.Black)
  | 4, 17 => some (Piece.Knight, ChessColor.Black)
  | 4, 18 => some (Piece.Knight, ChessColor.Black)
  | 4, 19 => some (Piece.Knight, ChessColor.Black)
  | 4, 20 => some (Piece.Knight, ChessColor.Black)
  | 5, 20 => some (Piece.Knight, ChessColor.Black)
  | _, _ => none

/-- A game on which the pruned depth-2 search and the unpruned full-width
depth-2 search choose different root moves, with pairwise-distinct root
scores in both searches: the narrowed window of the second grandchild is
clamped on the wrong side by the depth-0 leaf `color * quiescence(...)`. -/
def gamePrune : Rules Nat where
  status := gamePruneStatus
  legalMoves := gamePruneMoves
  makeMove := fun _ m => m.dst
  pieceAt := gamePrunePieces
  sideToMove := fun _ => ChessColor.Black
  checkersCount := fun _ => 0

/-- A board placement seen by `gameQueen`: board 1 adds a white queen on
square 12 to the otherwise identical board 0 (a black knight on square 20). -/
def gameQueenPieces (b sq : Nat) : Option (Piece × ChessColor) :=
  if sq = 20 then some (Piece.Knight, ChessColor.Black)
  else if b = 1 ∧ sq = 12 then some (Piece.Queen, ChessColor.White)
  else none

/-- A game whose boards 0 and 1 are identical except for one extra white
queen on board 1. -/
def gameQueen : Rules Nat where
  status := fun _ => BoardStatus.Ongoing
  legalMoves := fun _ => []
  makeMove := fun _ m => m.dst
  pieceAt := gameQueenPieces
  sideToMove := fun _ => ChessColor.White
  checkersCount := fun _ => 0

/-! Basic lemmas about the stable sort and the loops. -/

theorem mem_insertByKey (key : Move → Int) (m x : Move) (l : List Move) :
    x ∈ insertByKey key m l ↔ x = m ∨ x ∈ l := by
  induction l with
  | nil => simp [insertByKey]
  | cons y ys ih =>
    simp only [insertByKey]
    split
    · simp [List.mem_cons]
    · simp only [List.mem_cons, ih]
      tauto

theorem mem_sortByKey_fold (key : Move → Int) (x : Move) (l acc : List Move) :
    x ∈ l.foldl (fun a m => insertByKey key m a) acc ↔ x ∈ acc ∨ x ∈ l := by
  induction l generalizing acc with
  | nil => simp
  | cons y ys ih =>
    simp only [List.foldl_cons, ih, mem_insertByKey, List.mem_cons]
    tauto

theorem mem_sortByKey (key : Move → Int) (x : Move) (l : List Move) :
    x ∈ sortByKey key l ↔ x ∈ l := by
  simp [sortByKey, mem_sortByKey_fold]

theorem insertByKey_length (key : Move → Int) (m : Move) (l : List Move) :
    (insertByKey key m l).length = l.length + 1 := by
  induction l with
  | nil => rfl
  | cons y ys ih =>
    simp only [insertByKey]
    split <;> simp [ih]

theorem sortByKey_fold_length (key : Move → Int) (l acc : List Move) :
    (l.foldl (fun a m => insertByKey key m a) acc).length =
      acc.length + l.length := by
  induction l generalizing acc with
  | nil => simp
  | cons y ys ih => simp [ih, insertByKey_length]; omega

theorem sortByKey_length (key : Move → Int) (l : List Move) :
    (sortByKey key l).length = l.length := by
  simp [sortByKey, sortByKey_fold_length]

theorem sortByKey_ne_nil (key : Move → Int) (l : List Move) (h : l ≠ []) :
    sortByKey key l ≠ [] := by
  intro hs
  apply h
  have := sortByKey_length key l
  rw [hs] at this
  exact List.length_eq_zero.mp this.symm

/-! The claim theorems. -/

/-- C1: on a board whose terminal status is Checkmate, both `negamax_ab` and
`quiescence_search` return exactly `-color * 1000000`, and on a Stalemate or
any other draw they return exactly 0, whatever the depth, bounds and fuel. -/
theorem negamax_quiescence_terminal {B : Type} (r : Rules B) (qf depth : Nat)
    (b : B) (alpha beta c : Int) :
    (r.status b = BoardStatus.Checkmate →
      negamax_ab r qf depth b alpha beta c = -c * 1000000 ∧
        quiescence_search r qf b alpha beta c = -c * 1000000) ∧
    (r.status b = BoardStatus.Stalemate →
      negamax_ab r qf depth b alpha beta c = 0 ∧
        quiescence_search r qf b alpha beta c = 0) ∧
    (r.status b = BoardStatus.OtherDraw →
      negamax_ab r qf depth b alpha beta c = 0 ∧
        quiescence_search r qf b alpha beta c = 0) := by
  refine ⟨fun h => ?_, fun h => ?_, fun h => ?_⟩ <;>
    constructor <;> cases depth <;> cases qf <;>
    simp [negamax_ab, quiescence_search, h]

/-- Witness for C1 on the all-terminal game `gameT`: board 0 is a checkmate
(score −1000000 for sign +1, 1000000 for sign −1), board 1 a stalemate and
board 2 an other draw (score 0). -/
theorem negamax_quiescence_terminal_witness :
    negamax_ab gameT 3 2 0 (-7) 9 1 = -1000000 ∧
      quiescence_search gameT 3 0 (-7) 9 (-1) = 1000000 ∧
      negamax_ab gameT 3 2 1 (-7) 9 1 = 0 ∧
      quiescence_search gameT 3 2 (-7) 9 1 = 0 := by
  refine ⟨?_, ?_, ?_, ?_⟩
  · simpa using ((negamax_quiescence_terminal gameT 3 2 0 (-7) 9 1).1 rfl).1
  · simpa using ((negamax_quiescence_terminal gameT 3 2 0 (-7) 9 (-1)).1 rfl).2
  · exact ((negamax_quiescence_terminal gameT 3 2 1 (-7) 9 1).2.1 rfl).1
  · exact ((negamax_quiescence_terminal gameT 3 2 2 (-7) 9 1).2.2 rfl).2

/-- C4, counterexample: on `gameDiff` the Easy-difficulty selection equals the
fixed depth-5 search and differs from a depth-2 search, refuting the claim
that Easy searches at depth 2 (and, a fortiori, the random short-circuit:
the selection is a fixed function with no randomness). -/
theorem difficulty_policy_counterexample :
    ai_select_move gameDiff 3 0 [] Difficulty.Easy ≠
        choose_best_move_ab gameDiff 3 0 2 ∧
      ai_select_move gameDiff 3 0 [] Difficulty.Easy =
        choose_best_move_ab gameDiff 3 0 5 ∧
      ai_select_move gameDiff 3 0 [] Difficulty.Easy = some (Move.mk 0 2 none) ∧
      choose_best_move_ab gameDiff 3 0 2 = some (Move.mk 0 1 none) := by
  refine ⟨by decide, rfl, by decide, by decide⟩

/-- C4, amended: move selection ignores the difficulty setting entirely; for
every difficulty it searches at the fixed depth `MAX_DEPTH = 5` and never
randomizes. -/
theorem ai_select_move_fixed_depth {B : Type} (r : Rules B) (qf : Nat) (b : B)
    (history : List Move) (d1 d2 : Difficulty) :
    ai_select_move r qf b history d1 = choose_best_move_ab r qf b MAX_DEPTH ∧
      ai_select_move r qf b history d1 = ai_select_move r qf b history d2 :=
  ⟨rfl, rfl⟩

/-- C5: on `gameRev`, with a history whose last move was 8 → 16, the AI step
chooses exactly the reverse move 16 → 8 (with the same promotion field), which
is among the root candidates: the `banned` move computed in `run_app` is never
passed to `choose_best_move_ab`, so the reverse move is not excluded. -/
theorem ai_select_move_plays_reverse :
    ai_select_move gameRev 3 0 [Move.mk 8 16 none] Difficulty.Medium =
        some (Move.mk 16 8 none) ∧
      Move.mk 16 8 none ∈ gameRev.legalMoves 0 ∧
      Move.mk 16 8 none =
        Move.mk (Move.mk 8 16 none).dst (Move.mk 8 16 none).src
          (Move.mk 8 16 none).promo := by
  refine ⟨by decide, by decide, rfl⟩

/-- Raising alpha by `if alpha < s then s else alpha` is taking a maximum. -/
theorem raise_eq_max (alpha s : Int) : (if alpha < s then s else alpha) = max alpha s := by
  rcases le_or_lt s alpha with h | h
  · simp [max_eq_left h, not_lt.mpr h]
  · simp [max_eq_right (le_of_lt h), h]

/-- The negamax loop only depends on the values of the child evaluator. -/
theorem nList_congr (c1 c2 : Move → Int → Int) (beta : Int)
    (h : ∀ mv a, c1 mv a = c2 mv a) :
    ∀ (ms : List Move) (best alpha : Int),
      nList c1 beta ms best alpha = nList c2 beta ms best alpha := by
  intro ms
  induction ms with
  | nil => intro best alpha; rfl
  | cons mv ms ih =>
    intro best alpha
    simp only [nList, h]
    split
    · rfl
    · exact ih _ _

/-- The quiescence loop of the source equals the loop of the spec wording
whenever the child evaluators agree. -/
theorem qList_eq_specLoop (c1 c2 : Move → Int → Int) (beta : Int)
    (h : ∀ mv a, c1 mv a = c2 mv a) :
    ∀ (ms : List Move) (alpha : Int),
      qList c1 beta ms alpha = specLoop c2 beta ms alpha := by
  intro ms
  induction ms with
  | nil => intro alpha; rfl
  | cons mv ms ih =>
    intro alpha
    simp only [qList, specLoop, h, raise_eq_max]
    split
    · rfl
    · exact ih _

/-- Helper for C7: the translated `quiescence_search` and the spec-worded
`quiescenceSpec` agree on every board, every bound pair and every fuel. -/
theorem quiescence_eq_spec_all {B : Type} (r : Rules B) :
    ∀ (fuel : Nat) (b : B) (alpha beta c : Int),
      quiescence_search r fuel b alpha beta c =
        quiescenceSpec r fuel b alpha beta c := by
  intro fuel
  induction fuel with
  | zero =>
    intro b alpha beta c
    cases hst : r.status b <;>
      simp [quiescence_search, quiescenceSpec, hst, raise_eq_max, ge_iff_le]
  | succ n ih =>
    intro b alpha beta c
    rw [quiescence_search.eq_1, quiescenceSpec.eq_1]
    cases hst : r.status b <;> simp only [hst, ge_iff_le]
    split
    · rfl
    · rw [raise_eq_max]
      exact qList_eq_specLoop _ _ beta (fun mv a => by rw [ih]) _ _

/-- C7: on every non-terminal board with bounds `alpha < beta`, the quiescence
search behaves exactly as specified: it returns `beta` without examining any
move when the stand-pat evaluation reaches `beta`, otherwise raises alpha to
the stand-pat value, recurses only over the ordered capture/promotion moves
with negated and swapped bounds, cuts off at `beta`, and returns the final
alpha — that is, it coincides with the spec-worded `quiescenceSpec`. -/
theorem quiescence_matches_spec {B : Type} (r : Rules B) (qf : Nat) (b : B)
    (alpha beta c : Int) (_hst : r.status b = BoardStatus.Ongoing)
    (_hab : alpha < beta) :
    quiescence_search r qf b alpha beta c = quiescenceSpec r qf b alpha beta c :=
  quiescence_eq_spec_all r qf b alpha beta c

/-- Witness for C7 on board 4 of `gamePrune` (ongoing, bounds −3 < 9). -/
theorem quiescence_matches_spec_witness :
    gamePrune.status 4 = BoardStatus.Ongoing ∧ (-3 : Int) < 9 ∧
      quiescence_search gamePrune 3 4 (-3) 9 (-1) =
        quiescenceSpec gamePrune 3 4 (-3) 9 (-1) :=
  ⟨rfl, by norm_num, quiescence_matches_spec gamePrune 3 4 (-3) 9 (-1) rfl (by norm_num)⟩

/-- C6, counterexample: on `gameExt` at depth 1 the source search values the
root at 0, while the claimed variant that searches capture children one ply
deeper (`negamaxWith` with the capture/promotion/check hook) values it at
−1000000; the root's only move is a capture, so the claim that such children
are searched with depth − 1 + 1 is false of `negamax_ab`, which always
recurses with depth − 1. -/
theorem negamax_extension_counterexample :
    negamax_ab gameExt 3 1 0 (-50) 60 1 = 0 ∧
      negamaxWith gameExt 3 (ext_noisy gameExt) 5 1 0 (-50) 60 1 = -1000000 ∧
      (gameExt.pieceAt 0 (Move.mk 0 1 none).dst).isSome = true ∧
      gameExt.legalMoves 0 = [Move.mk 0 1 none] := by
  refine ⟨by decide, by decide, by decide, by decide⟩

/-- C6, amended: in the recursive search every child — capture, promotion,
check or quiet — is searched with remaining depth exactly depth − 1: the
source search coincides with the extension-hook search instantiated with the
zero hook (given enough fuel). -/
theorem negamax_no_extension {B : Type} (r : Rules B) (qf : Nat) :
    ∀ (fuel depth : Nat), depth ≤ fuel → ∀ (b : B) (alpha beta c : Int),
      negamaxWith r qf ext_zero fuel depth b alpha beta c =
        negamax_ab r qf depth b alpha beta c := by
  intro fuel
  induction fuel with
  | zero =>
    intro depth hd b alpha beta c
    obtain rfl : depth = 0 := Nat.le_zero.mp hd
    cases hst : r.status b <;> simp [negamaxWith, negamax_ab, hst]
  | succ n ih =>
    intro depth hd b alpha beta c
    cases depth with
    | zero => cases hst : r.status b <;> simp [negamaxWith, negamax_ab, hst]
    | succ d =>
      cases hst : r.status b <;> simp only [negamaxWith, negamax_ab, hst]
      exact nList_congr _ _ beta
        (fun mv a => by simp only [ext_zero, Nat.add_zero]; rw [ih d (Nat.succ_le_succ_iff.mp hd)]) _ _ _

/-- Witness for C6's amended statement on `gameExt` at depth 2 with fuel 5. -/
theorem negamax_no_extension_witness :
    negamaxWith gameExt 3 ext_zero 5 2 0 (-50) 60 1 =
      negamax_ab gameExt 3 2 0 (-50) 60 1 :=
  negamax_no_extension gameExt 3 5 2 (by norm_num) 0 (-50) 60 1

/-- C3, counterexample: boards 0 and 1 of `gameQueen` are identical except
that board 1 has an extra white queen on square 12, yet their White-
perspective stand-pat evaluations are equal — they differ by 0, not by 900:
the leaf evaluator used when the search bottoms out has no material term. -/
theorem stand_pat_material_counterexample :
    ((List.range 64).all fun sq =>
        (sq == 12) || (gameQueenPieces 1 sq == gameQueenPieces 0 sq)) = true ∧
      gameQueen.pieceAt 1 12 = some (Piece.Queen, ChessColor.White) ∧
      gameQueen.pieceAt 0 12 = none ∧
      stand_pat gameQueen 1 1 = stand_pat gameQueen 0 1 ∧
      stand_pat gameQueen 1 1 - stand_pat gameQueen 0 1 ≠ 900 := by
  refine ⟨by decide, by decide, by decide, by decide, by decide⟩

/-- C3, amended: the stand-pat leaf evaluator contains no material component;
in particular adding a white queen on an empty square of any board leaves its
static evaluation unchanged (the two evaluations differ by 0, not 900). -/
theorem stand_pat_ignores_added_queen {B : Type} (r : Rules B) (b1 b2 : B)
    (s : Nat) (c : Int)
    (hdiff : ∀ sq, sq ≠ s → r.pieceAt b2 sq = r.pieceAt b1 sq)
    (h1 : r.pieceAt b1 s = none)
    (h2 : r.pieceAt b2 s = some (Piece.Queen, ChessColor.White)) :
    stand_pat r b2 c = stand_pat r b1 c := by
  unfold stand_pat
  congr 1
  have hsq : ∀ sq, square_bonus r b2 sq = square_bonus r b1 sq := by
    intro sq
    by_cases hs : sq = s
    · subst hs
      unfold square_bonus
      rw [h1, h2]
    · unfold square_bonus
      rw [hdiff sq hs]
  simp only [hsq]

/-- Witness for C3's amended statement on `gameQueen`. -/
theorem stand_pat_ignores_added_queen_witness :
    stand_pat gameQueen 1 1 = stand_pat gameQueen 0 1 :=
  stand_pat_ignores_added_queen gameQueen 0 1 12 1
    (by
      intro sq hs
      simp only [gameQueen, gameQueenPieces]
      by_cases h20 : sq = 20
      · simp [h20]
      · simp [h20, hs])
    (by decide) (by decide)

/-- Every square contributes at most 20 in absolute value to the stand-pat
evaluation. -/
theorem square_bonus_bound {B : Type} (r : Rules B) (b : B) (sq : Nat) :
    -20 ≤ square_bonus r b sq ∧ square_bonus r b sq ≤ 20 := by
  unfold square_bonus
  rcases r.pieceAt b sq with _ | ⟨p, c⟩
  · norm_num
  · rcases c <;> rcases p <;> constructor <;> simp only [] <;>
      (try split) <;> norm_num

/-- The stand-pat fold moves by at most 20 per square. -/
theorem bonus_fold_bound {B : Type} (r : Rules B) (b : B) :
    ∀ (l : List Nat) (s : Int),
      s - 20 * l.length ≤ l.foldl (fun a sq => a + square_bonus r b sq) s ∧
        l.foldl (fun a sq => a + square_bonus r b sq) s ≤ s + 20 * l.length := by
  intro l
  induction l with
  | nil => intro s; simp
  | cons x xs ih =>
    intro s
    have hb := square_bonus_bound r b x
    have ihs := ih (s + square_bonus r b x)
    simp only [List.foldl_cons, List.length_cons]
    push_cast
    constructor
    · linarith [ihs.1, hb.1]
    · linarith [ihs.2, hb.2]

/-- The stand-pat evaluation is bounded by 20 × 64 = 1280 in absolute value. -/
theorem stand_pat_bound {B : Type} (r : Rules B) (b : B) (c : Int)
    (hc : c = 1 ∨ c = -1) :
    -1280 ≤ stand_pat r b c ∧ stand_pat r b c ≤ 1280 := by
  have h := bonus_fold_bound r b (List.range 64) 0
  simp only [List.length_range] at h
  unfold stand_pat
  rcases hc with rfl | rfl <;> constructor <;> push_cast at h <;>
    linarith [h.1, h.2]

/-- If every child score stays within the symmetric `i32Max` band, the
quiescence loop does too. -/
theorem qList_bound (child : Move → Int → Int) (beta : Int)
    (hch : ∀ mv a, -i32Max ≤ a → a < beta →
      -i32Max ≤ child mv a ∧ child mv a ≤ i32Max) :
    ∀ (ms : List Move) (alpha : Int), -i32Max ≤ alpha → alpha < beta →
      beta ≤ i32Max →
      -i32Max ≤ qList child beta ms alpha ∧ qList child beta ms alpha ≤ i32Max := by
  intro ms
  induction ms with
  | nil =>
    intro alpha h1 h2 h3
    exact ⟨h1, le_trans (le_of_lt h2) h3⟩
  | cons mv ms ih =>
    intro alpha h1 h2 h3
    have hs := hch mv alpha h1 h2
    simp only [qList]
    split
    · exact ⟨by linarith, h3⟩
    · rename_i hns
      refine ih _ ?_ ?_ h3
      · rw [raise_eq_max]
        exact le_trans h1 (le_max_left _ _)
      · rw [raise_eq_max]
        exact max_lt h2 (not_le.mp hns)

/-- If every child score stays within the symmetric `i32Max` band, the
negamax loop result does too, provided the move list is nonempty or the
incoming best score is already in band. -/
theorem nList_bound (child : Move → Int → Int) (beta : Int)
    (hch : ∀ mv a, -i32Max ≤ a → a < beta →
      -i32Max ≤ child mv a ∧ child mv a ≤ i32Max) :
    ∀ (ms : List Move) (best alpha : Int), -i32Max ≤ alpha → alpha < beta →
      beta ≤ i32Max → best ≤ i32Max → (ms ≠ [] ∨ -i32Max ≤ best) →
      -i32Max ≤ nList child beta ms best alpha ∧
        nList child beta ms best alpha ≤ i32Max := by
  intro ms
  induction ms with
  | nil =>
    intro best alpha _h1 _h2 _h3 h4 h5
    rcases h5 with h5 | h5
    · exact absurd rfl h5
    · exact ⟨h5, h4⟩
  | cons mv ms ih =>
    intro best alpha h1 h2 h3 h4 h5
    have hs := hch mv alpha h1 h2
    simp only [nList]
    split
    · exact ⟨le_trans hs.1 (le_max_right _ _), max_le h4 hs.2⟩
    · rename_i hns
      refine ih _ _ ?_ ?_ h3 ?_ ?_
      · exact le_trans h1 (le_max_left _ _)
      · exact not_le.mp hns
      · exact max_le h4 hs.2
      · right
        exact le_trans hs.1 (le_max_right _ _)

/-- The quiescence search stays within the symmetric `i32Max` band whenever
its window does. -/
theorem quiescence_bound {B : Type} (r : Rules B) :
    ∀ (fuel : Nat) (b : B) (alpha beta c : Int), (c = 1 ∨ c = -1) →
      -i32Max ≤ alpha → alpha < beta → beta ≤ i32Max →
      -i32Max ≤ quiescence_search r fuel b alpha beta c ∧
        quiescence_search r fuel b alpha beta c ≤ i32Max := by
  have hM : (1280 : Int) ≤ i32Max := by norm_num [i32Max]
  intro fuel
  induction fuel with
  | zero =>
    intro b alpha beta c hc h1 h2 h3
    rw [quiescence_search.eq_1]
    cases hst : r.status b
    case Ongoing =>
      have hsp := stand_pat_bound r b c hc
      simp only [hst]
      split
      · exact ⟨by linarith, h3⟩
      · rw [raise_eq_max]
        exact ⟨le_trans h1 (le_max_left _ _),
          max_le (le_trans (le_of_lt h2) h3) (le_trans hsp.2 hM)⟩
    case Checkmate => rcases hc with rfl | rfl <;> norm_num [i32Max]
    case Stalemate => norm_num [i32Max]
    case OtherDraw => norm_num [i32Max]
  | succ n ih =>
    intro b alpha beta c hc h1 h2 h3
    rw [quiescence_search.eq_1]
    cases hst : r.status b
    case Ongoing =>
      have hsp := stand_pat_bound r b c hc
      simp only [hst]
      split
      · exact ⟨by linarith, h3⟩
      · rename_i hspb
        rw [raise_eq_max]
        refine qList_bound _ beta ?_ _ _ ?_ ?_ h3
        · intro mv a ha1 ha2
          have hc2 : -c = 1 ∨ -c = -1 := by
            rcases hc with rfl | rfl <;> simp
          have hq := ih (r.makeMove b mv) (-beta) (-a) (-c) hc2
            (by linarith) (by linarith) (by linarith)
          exact ⟨by linarith [hq.2], by linarith [hq.1]⟩
        · exact le_trans h1 (le_max_left _ _)
        · exact max_lt h2 (not_le.mp hspb)
    case Checkmate => rcases hc with rfl | rfl <;> norm_num [i32Max]
    case Stalemate => norm_num [i32Max]
    case OtherDraw => norm_num [i32Max]

/-- The negamax search stays within the symmetric `i32Max` band whenever its
window does, given the Rules Provider guarantee that ongoing boards have
legal moves. -/
theorem negamax_bound {B : Type} (r : Rules B) (qf : Nat)
    (hOG : ∀ bd, r.status bd = BoardStatus.Ongoing → r.legalMoves bd ≠ []) :
    ∀ (depth : Nat) (b : B) (alpha beta c : Int), (c = 1 ∨ c = -1) →
      -i32Max ≤ alpha → alpha < beta → beta ≤ i32Max →
      -i32Max ≤ negamax_ab r qf depth b alpha beta c ∧
        negamax_ab r qf depth b alpha beta c ≤ i32Max := by
  intro depth
  induction depth with
  | zero =>
    intro b alpha beta c hc h1 h2 h3
    rw [negamax_ab.eq_1]
    cases hst : r.status b
    case Ongoing =>
      simp only [hst]
      have hq := quiescence_bound r qf b alpha beta c hc h1 h2 h3
      rcases hc with rfl | rfl
      · exact ⟨by linarith [hq.1], by linarith [hq.2]⟩
      · exact ⟨by linarith [hq.2], by linarith [hq.1]⟩
    case Checkmate => rcases hc with rfl | rfl <;> norm_num [i32Max]
    case Stalemate => norm_num [i32Max]
    case OtherDraw => norm_num [i32Max]
  | succ d ih =>
    intro b alpha beta c hc h1 h2 h3
    rw [negamax_ab.eq_2]
    cases hst : r.status b
    case Ongoing =>
      simp only [hst]
      refine nList_bound _ beta ?_ _ _ _ h1 h2 h3 ?_ ?_
      · intro mv a ha1 ha2
        have hc2 : -c = 1 ∨ -c = -1 := by
          rcases hc with rfl | rfl <;> simp
        have hn := ih (r.makeMove b mv) (-beta) (-a) (-c) hc2
          (by linarith) (by linarith) (by linarith)
        exact ⟨by linarith [hn.2], by linarith [hn.1]⟩
      · norm_num [i32Min, i32Max]
      · left
        exact sortByKey_ne_nil _ _ (hOG b hst)
    case Checkmate => rcases hc with rfl | rfl <;> norm_num [i32Max]
    case Stalemate => norm_num [i32Max]
    case OtherDraw => norm_num [i32Max]

/-- The sign at the root is ±1. -/
theorem root_color_cases {B : Type} (r : Rules B) (b : B) :
    -(root_color r b) = 1 ∨ -(root_color r b) = -1 := by
  unfold root_color
  split <;> simp

/-- Every root score is strictly above `i32Min` and at most `i32Max`. -/
theorem root_score_bounds {B : Type} (r : Rules B) (qf : Nat)
    (hOG : ∀ bd, r.status bd = BoardStatus.Ongoing → r.legalMoves bd ≠ [])
    (b : B) (depth : Nat) (mv : Move) :
    i32Min < root_score r qf b depth mv ∧ root_score r qf b depth mv ≤ i32Max := by
  have hn := negamax_bound r qf hOG (depth - 1) (r.makeMove b mv)
    (i32Min + 1) i32Max (-(root_color r b)) (root_color_cases r b)
    (by norm_num [i32Min, i32Max]) (by norm_num [i32Min, i32Max]) le_rfl
  unfold root_score
  constructor
  · have := hn.2
    simp only [i32Min, i32Max] at this ⊢
    linarith
  · linarith [hn.1]

/-- Once a candidate is recorded, the root loop keeps returning a candidate. -/
theorem cList_some (score : Move → Int) :
    ∀ (ms : List Move) (mv : Move) (s : Int),
      ∃ m2, cList score ms (some mv, s) = some m2 := by
  intro ms
  induction ms with
  | nil => intro mv s; exact ⟨mv, rfl⟩
  | cons x xs ih =>
    intro mv s
    simp only [cList]
    split
    · exact ih _ _
    · exact ih _ _

/-- Any move returned by the root loop is the incoming candidate or a member
of the traversed list. -/
theorem cList_mem (score : Move → Int) :
    ∀ (ms : List Move) (st : Option Move × Int) (m : Move),
      cList score ms st = some m → st.1 = some m ∨ m ∈ ms := by
  intro ms
  induction ms with
  | nil => intro st m h; exact Or.inl h
  | cons x xs ih =>
    intro st m h
    simp only [cList] at h
    split at h
    · rcases ih _ _ h with h2 | h2
      · right
        simp only [Option.some.injEq] at h2
        rw [← h2]
        exact List.mem_cons_self _ _
      · right
        exact List.mem_cons_of_mem _ h2
    · rcases ih _ _ h with h2 | h2
      · exact Or.inl h2
      · right
        exact List.mem_cons_of_mem _ h2

/-- In `gameW` every ongoing board has legal moves (only board 0 is ongoing). -/
theorem gameW_ongoing_moves :
    ∀ b, gameW.status b = BoardStatus.Ongoing → gameW.legalMoves b ≠ [] := by
  intro b
  match b with
  | 0 => exact fun _ => by decide
  | 1 => exact fun h => nomatch h
  | 2 => exact fun h => nomatch h
  | n + 3 => exact fun h => nomatch h

/-- C2: the root move chooser returns none exactly when the board has no
legal moves, and whenever it returns a move that move is legal, for every
requested depth (given the Rules Provider guarantee that ongoing boards have
legal moves). -/
theorem choose_best_move_none_iff {B : Type} (r : Rules B) (qf : Nat) (b : B)
    (depth : Nat)
    (hOG : ∀ bd, r.status bd = BoardStatus.Ongoing → r.legalMoves bd ≠ []) :
    (choose_best_move_ab r qf b depth = none ↔ r.legalMoves b = []) ∧
      (∀ mv, choose_best_move_ab r qf b depth = some mv →
        mv ∈ r.legalMoves b) := by
  unfold choose_best_move_ab
  cases hemp : (r.legalMoves b).isEmpty
  · have hne : r.legalMoves b ≠ [] := by
      intro h
      rw [h] at hemp
      exact absurd hemp (by simp)
    obtain ⟨m0, ms0, hsort⟩ :
        ∃ m0 ms0, sortByKey (move_priority r b) (r.legalMoves b) = m0 :: ms0 := by
      rcases hs : sortByKey (move_priority r b) (r.legalMoves b) with _ | ⟨m0, ms0⟩
      · exact absurd hs (sortByKey_ne_nil _ _ hne)
      · exact ⟨m0, ms0, rfl⟩
    simp only [hemp, Bool.false_eq_true, if_false, hsort]
    constructor
    · constructor
      · intro h
        exfalso
        have hb0 := root_score_bounds r qf hOG b depth m0
        simp only [cList, if_pos hb0.1] at h
        obtain ⟨m2, hm2⟩ := cList_some (root_score r qf b depth) ms0 m0
          (root_score r qf b depth m0)
        rw [hm2] at h
        exact Option.noConfusion h
      · intro h
        exact absurd h hne
    · intro mv h
      rcases cList_mem _ _ _ _ h with h2 | h2
      · exact absurd h2 (by simp)
      · have : mv ∈ sortByKey (move_priority r b) (r.legalMoves b) := by
          rw [hsort]
          exact h2
        exact (mem_sortByKey _ _ _).mp this
  · have he : r.legalMoves b = [] := List.isEmpty_iff.mp hemp
    simp [hemp, he]

/-- Witness for C2 on `gameW`: the chooser returns the stalemating move,
which is legal, and does not return none. -/
theorem choose_best_move_none_iff_witness :
    choose_best_move_ab gameW 3 0 5 = some (Move.mk 0 1 none) ∧
      Move.mk 0 1 none ∈ gameW.legalMoves 0 := by
  refine ⟨by decide, ?_⟩
  exact (choose_best_move_none_iff gameW 3 0 5 gameW_ongoing_moves).2
    (Move.mk 0 1 none) (by decide)

/-- C9: no `i32` overflow occurs in score arithmetic: the root search is
invoked with `alpha = i32Min + 1` (not `i32Min`); on every call whose window
lies in the symmetric band `[-i32Max, i32Max]` (as all reachable calls do,
starting from the root window `(i32Min + 1, i32Max)`), the negamax and
quiescence results lie in that band, so every negation of a score or bound
performed across plies stays within the `i32` range; and every root score is
strictly above `i32Min` and at most `i32Max`. -/
theorem search_scores_within_i32 {B : Type} (r : Rules B) (qf : Nat)
    (hOG : ∀ bd, r.status bd = BoardStatus.Ongoing → r.legalMoves bd ≠ []) :
    (∀ (depth : Nat) (b : B) (alpha beta c : Int), (c = 1 ∨ c = -1) →
      -i32Max ≤ alpha → alpha < beta → beta ≤ i32Max →
      (-i32Max ≤ negamax_ab r qf depth b alpha beta c ∧
          negamax_ab r qf depth b alpha beta c ≤ i32Max) ∧
        (-i32Max ≤ quiescence_search r qf b alpha beta c ∧
          quiescence_search r qf b alpha beta c ≤ i32Max)) ∧
      (∀ (b : B) (depth : Nat) (mv : Move),
        root_score r qf b depth mv =
          -(negamax_ab r qf (depth - 1) (r.makeMove b mv) (i32Min + 1) i32Max
              (-(root_color r b))) ∧
          i32Min < root_score r qf b depth mv ∧
          root_score r qf b depth mv ≤ i32Max) := by
  constructor
  · intro depth b alpha beta c hc h1 h2 h3
    exact ⟨negamax_bound r qf hOG depth b alpha beta c hc h1 h2 h3,
      quiescence_bound r qf b alpha beta c hc h1 h2 h3⟩
  · intro b depth mv
    exact ⟨rfl, root_score_bounds r qf hOG b depth mv⟩

/-- Witness for C9 on `gameW` with the root window. -/
theorem search_scores_within_i32_witness :
    (-i32Max ≤ negamax_ab gameW 3 2 0 (i32Min + 1) i32Max 1 ∧
        negamax_ab gameW 3 2 0 (i32Min + 1) i32Max 1 ≤ i32Max) ∧
      i32Min < root_score gameW 3 0 5 (Move.mk 0 1 none) := by
  have h := search_scores_within_i32 gameW 3 gameW_ongoing_moves
  exact ⟨(h.1 2 0 (i32Min + 1) i32Max 1 (Or.inl rfl)
      (by norm_num [i32Min, i32Max]) (by norm_num [i32Min, i32Max]) le_rfl).1,
    (h.2 0 5 (Move.mk 0 1 none)).2.1⟩

/-- A max-fold dominates its starting value. -/
theorem le_foldl_max (g : Move → Int) :
    ∀ (l : List Move) (a : Int), a ≤ l.foldl (fun acc mv => max acc (g mv)) a := by
  intro l
  induction l with
  | nil => intro a; exact le_rfl
  | cons x xs ih =>
    intro a
    exact le_trans (le_max_left _ (g x)) (ih _)

/-- A max-fold of bounded values from a bounded start is bounded. -/
theorem foldl_max_le (g : Move → Int) :
    ∀ (l : List Move) (a K : Int), a ≤ K → (∀ mv ∈ l, g mv ≤ K) →
      l.foldl (fun acc mv => max acc (g mv)) a ≤ K := by
  intro l
  induction l with
  | nil => intro a K ha _; exact ha
  | cons x xs ih =>
    intro a K ha hl
    refine ih _ K (max_le ha (hl x (List.mem_cons_self _ _))) ?_
    intro mv hmv
    exact hl mv (List.mem_cons_of_mem _ hmv)

/-- An outer max can be pulled out of a max-fold. -/
theorem foldl_max_pull (g : Move → Int) :
    ∀ (l : List Move) (x a : Int),
      l.foldl (fun acc mv => max acc (g mv)) (max x a) =
        max x (l.foldl (fun acc mv => max acc (g mv)) a) := by
  intro l
  induction l with
  | nil => intro x a; rfl
  | cons y ys ih =>
    intro x a
    simp only [List.foldl_cons, max_assoc]
    exact ih x (max a (g y))

/-- The bound-free quiescence value is within the mate sentinel band. -/
theorem qVal_bound {B : Type} (r : Rules B) :
    ∀ (fuel : Nat) (b : B) (c : Int), (c = 1 ∨ c = -1) →
      -1000000 ≤ qVal r fuel b c ∧ qVal r fuel b c ≤ 1000000 := by
  intro fuel
  induction fuel with
  | zero =>
    intro b c hc
    rw [qVal.eq_1]
    cases hst : r.status b
    case Ongoing =>
      have hsp := stand_pat_bound r b c hc
      simp only [hst]
      constructor <;> linarith [hsp.1, hsp.2]
    case Checkmate => rcases hc with rfl | rfl <;> norm_num
    case Stalemate => norm_num
    case OtherDraw => norm_num
  | succ n ih =>
    intro b c hc
    rw [qVal.eq_1]
    cases hst : r.status b
    case Ongoing =>
      have hsp := stand_pat_bound r b c hc
      simp only [hst]
      constructor
      · exact le_trans (by linarith [hsp.1]) (le_foldl_max _ _ _)
      · refine foldl_max_le _ _ _ _ (by linarith [hsp.2]) ?_
        intro mv _
        have hc2 : -c = 1 ∨ -c = -1 := by rcases hc with rfl | rfl <;> simp
        have h := ih (r.makeMove b mv) (-c) hc2
        linarith [h.1]
    case Checkmate => rcases hc with rfl | rfl <;> norm_num
    case Stalemate => norm_num
    case OtherDraw => norm_num

/-- Negating a fail-hard clamp flips it around the negated window. -/
theorem neg_clamp (a beta v : Int) :
    -(min (-a) (max (-beta) v)) = max a (min beta (-v)) := by
  rcases le_total beta (-v) with h | h
  · rw [min_eq_left h, max_eq_left (by linarith : v ≤ -beta), min_neg_neg,
      neg_neg]
  · rw [min_eq_right h]
    have hv : -beta ≤ v := by linarith
    rw [max_eq_right hv, ← neg_neg v, min_neg_neg, neg_neg, neg_neg]

/-- The quiescence loop computes the fail-hard clamp of the running maximum
of the true child values, provided each child evaluates to its true value or
to its clamp into the child window. -/
theorem qList_clamp (child : Move → Int → Int) (tv : Move → Int) (beta : Int)
    (hch : ∀ mv a, a < beta →
      child mv a = tv mv ∨ child mv a = max a (min beta (tv mv))) :
    ∀ (ms : List Move) (alpha : Int), alpha < beta →
      qList child beta ms alpha =
        min beta (ms.foldl (fun acc mv => max acc (tv mv)) alpha) := by
  intro ms
  induction ms with
  | nil =>
    intro alpha h
    exact (min_eq_right (le_of_lt h)).symm
  | cons mv ms ih =>
    intro alpha h
    simp only [qList, List.foldl_cons]
    rcases hch mv alpha h with hc1 | hc1 <;> rw [hc1]
    · split
      · rename_i hb
        rw [min_eq_left
          (le_trans (le_trans hb (le_max_right alpha _)) (le_foldl_max _ _ _))]
      · rename_i hnb
        rw [raise_eq_max]
        exact ih _ (max_lt h (not_le.mp hnb))
    · split
      · rename_i hb
        have hbm : beta ≤ min beta (tv mv) := by
          rcases le_max_iff.mp hb with h2 | h2
          · linarith
          · exact h2
        have htv : beta ≤ tv mv := le_trans hbm (min_le_right _ _)
        rw [min_eq_left
          (le_trans (le_trans htv (le_max_right alpha _)) (le_foldl_max _ _ _))]
      · rename_i hnb
        have htv : tv mv < beta := by
          by_contra hge
          apply hnb
          rw [min_eq_left (not_lt.mp hge)]
          rw [max_eq_right (le_of_lt h)]
        rw [min_eq_right (le_of_lt htv)] at hnb ⊢
        rw [raise_eq_max, ← max_assoc, max_self]
        exact ih _ (not_le.mp hnb)

/-- The quiescence search is the fail-hard clamp of its bound-free value on
ongoing boards, and that value itself on terminal boards. -/
theorem quiescence_clamp {B : Type} (r : Rules B) :
    ∀ (fuel : Nat) (b : B) (alpha beta c : Int), alpha < beta →
      quiescence_search r fuel b alpha beta c =
        (match r.status b with
         | BoardStatus.Ongoing => min beta (max alpha (qVal r fuel b c))
         | _ => qVal r fuel b c) := by
  intro fuel
  induction fuel with
  | zero =>
    intro b alpha beta c h
    rw [quiescence_search.eq_1, qVal.eq_1]
    cases hst : r.status b <;> simp only [hst]
    split
    · rename_i hb
      rw [min_eq_left (le_trans hb (le_max_right alpha _))]
    · rename_i hnb
      rw [raise_eq_max,
        min_eq_right (le_of_lt (max_lt h (not_le.mp hnb)))]
  | succ n ih =>
    intro b alpha beta c h
    rw [quiescence_search.eq_1, qVal.eq_1]
    cases hst : r.status b <;> simp only [hst]
    split
    · rename_i hb
      rw [min_eq_left
        (le_trans (le_trans hb (le_foldl_max _ _ _)) (le_max_right alpha _))]
    · rename_i hnb
      rw [raise_eq_max]
      rw [qList_clamp _
        (fun mv => -(qVal r n (r.makeMove b mv) (-c))) beta ?_ _ _
        (max_lt h (not_le.mp hnb))]
      · rw [foldl_max_pull]
      · intro mv a ha
        rw [ih (r.makeMove b mv) (-beta) (-a) (-c) (by linarith)]
        cases hst2 : r.status (r.makeMove b mv) <;> simp only [hst2]
        case Ongoing =>
          right
          exact neg_clamp a beta (qVal r n (r.makeMove b mv) (-c))
        case Checkmate => exact Or.inl trivial
        case Stalemate => exact Or.inl trivial
        case OtherDraw => exact Or.inl trivial

/-- At depth 0 with the full root window the source search equals the
unpruned search: the window cannot clamp a value bounded by the mate
sentinel. -/
theorem negamax_depth0_full {B : Type} (r : Rules B) (qf : Nat) (b : B)
    (c : Int) (hc : c = 1 ∨ c = -1) :
    negamax_ab r qf 0 b (i32Min + 1) i32Max c = negamax_plain r qf 0 b c := by
  rw [negamax_ab.eq_1, negamax_plain.eq_1]
  cases hst : r.status b <;> simp only [hst]
  have hq := qVal_bound r qf b c hc
  rw [quiescence_clamp r qf b (i32Min + 1) i32Max c
    (by norm_num [i32Min, i32Max])]
  simp only [hst]
  rw [max_eq_right (by simp only [i32Min]; linarith [hq.1]),
    min_eq_right (by simp only [i32Max]; linarith [hq.2])]

/-- At root depth 1 pruned and unpruned root scores coincide. -/
theorem root_score_eq_plain_depth1 {B : Type} (r : Rules B) (qf : Nat) (b : B)
    (mv : Move) : root_score r qf b 1 mv = plain_score r qf b 1 mv := by
  unfold root_score plain_score
  exact congrArg Neg.neg
    (negamax_depth0_full r qf (r.makeMove b mv) (-(root_color r b))
      (root_color_cases r b))

/-- The root loop never replaces its candidate when no later score beats the
recorded one. -/
theorem cList_stay (f : Move → Int) :
    ∀ (ms : List Move) (o : Option Move) (s : Int),
      (∀ m ∈ ms, ¬s < f m) → cList f ms (o, s) = o := by
  intro ms
  induction ms with
  | nil => intro o s _; rfl
  | cons x xs ih =>
    intro o s hle
    simp only [cList]
    rw [if_neg (hle x (List.mem_cons_self _ _))]
    exact ih o s fun m hm => hle m (List.mem_cons_of_mem _ hm)

/-- With a unique strict maximizer whose score beats the running best, the
root loop returns exactly that maximizer, whatever the traversal order that
presents it. -/
theorem cList_of_max (f : Move → Int) :
    ∀ (ms : List Move) (mstar : Move), mstar ∈ ms →
      (∀ m ∈ ms, m ≠ mstar → f m < f mstar) →
      ∀ (o : Option Move) (s : Int), s < f mstar →
        cList f ms (o, s) = some mstar := by
  intro ms
  induction ms with
  | nil => intro mstar h; exact absurd h (List.not_mem_nil _)
  | cons x xs ih =>
    intro mstar hmem hmax o s hs
    by_cases hx : x = mstar
    · subst hx
      simp only [cList]
      rw [if_pos hs]
      refine cList_stay f xs (some x) (f x) ?_
      intro m hm
      by_cases hmx : m = x
      · subst hmx; exact lt_irrefl _
      · exact not_lt.mpr
          (le_of_lt (hmax m (List.mem_cons_of_mem _ hm) hmx))
    · have hmem2 : mstar ∈ xs := by
        rcases List.mem_cons.mp hmem with h | h
        · exact absurd h.symm hx
        · exact h
      have hmax2 : ∀ m ∈ xs, m ≠ mstar → f m < f mstar := fun m hm =>
        hmax m (List.mem_cons_of_mem _ hm)
      simp only [cList]
      split
      · exact ih mstar hmem2 hmax2 (some x) (f x)
          (hmax x (List.mem_cons_self _ _) hx)
      · exact ih mstar hmem2 hmax2 o s hs

/-- A nonempty list with pairwise-distinct scores has a unique strict
maximizer. -/
theorem exists_max_unique (f : Move → Int) :
    ∀ (ms : List Move), ms ≠ [] →
      ms.Pairwise (fun m1 m2 => f m1 ≠ f m2) →
      ∃ mstar, mstar ∈ ms ∧ ∀ m ∈ ms, m ≠ mstar → f m < f mstar := by
  intro ms
  induction ms with
  | nil => intro h; exact absurd rfl h
  | cons x xs ih =>
    intro _ hp
    have hx : ∀ m ∈ xs, f x ≠ f m := (List.pairwise_cons.mp hp).1
    have hpt : xs.Pairwise fun m1 m2 => f m1 ≠ f m2 :=
      (List.pairwise_cons.mp hp).2
    by_cases hxs : xs = []
    · subst hxs
      refine ⟨x, List.mem_cons_self _ _, ?_⟩
      intro m hm hne
      rcases List.mem_cons.mp hm with h | h
      · exact absurd h hne
      · exact absurd h (List.not_mem_nil _)
    · obtain ⟨mp, hmpmem, hmpmax⟩ := ih hxs hpt
      rcases lt_or_gt_of_ne (hx mp hmpmem) with hlt | hgt
      · refine ⟨mp, List.mem_cons_of_mem _ hmpmem, ?_⟩
        intro m hm hne
        rcases List.mem_cons.mp hm with h | h
        · rw [h]; exact hlt
        · exact hmpmax m h hne
      · refine ⟨x, List.mem_cons_self _ _, ?_⟩
        intro m hm hne
        rcases List.mem_cons.mp hm with h | h
        · exact absurd h hne
        · by_cases hmp : m = mp
          · rw [hmp]; exact hgt
          · exact lt_trans (hmpmax m h hmp) hgt

/-- C8, counterexample: on `gamePrune` at depth 2 the pruned root search and
the unpruned full-width search with the same leaf evaluation choose different
moves, although the root scores are pairwise distinct in both searches: the
narrowed second-grandchild window, combined with the depth-0 leaf
`color * quiescence(alpha, beta, color)`, clamps the subtree value of the
first root move to 0 where its unpruned value is −50. -/
theorem alphabeta_prune_counterexample :
    choose_best_move_ab gamePrune 3 0 2 = some (Move.mk 0 1 none) ∧
      choose_best_plain gamePrune 3 0 2 = some (Move.mk 0 2 none) ∧
      choose_best_move_ab gamePrune 3 0 2 ≠ choose_best_plain gamePrune 3 0 2 ∧
      root_score gamePrune 3 0 2 (Move.mk 0 1 none) = 0 ∧
      root_score gamePrune 3 0 2 (Move.mk 0 2 none) = -10 ∧
      plain_score gamePrune 3 0 2 (Move.mk 0 1 none) = -50 ∧
      plain_score gamePrune 3 0 2 (Move.mk 0 2 none) = -10 := by
  refine ⟨by decide, by decide, by decide, by decide, by decide, by decide,
    by decide⟩

/-- C8, amended: at root depth 1 — where every child is evaluated by the
full-window quiescence value — and when the root scores are pairwise
distinct, the pruned chooser and the unpruned full-width chooser select the
same move; at greater depths (or with tied scores) pruning and ordering can
change the selection. -/
theorem choose_best_depth1_eq_plain {B : Type} (r : Rules B) (qf : Nat)
    (b : B)
    (hOG : ∀ bd, r.status bd = BoardStatus.Ongoing → r.legalMoves bd ≠ [])
    (hdist : (r.legalMoves b).Pairwise
      (fun m1 m2 => root_score r qf b 1 m1 ≠ root_score r qf b 1 m2)) :
    choose_best_move_ab r qf b 1 = choose_best_plain r qf b 1 := by
  unfold choose_best_move_ab choose_best_plain
  cases hemp : (r.legalMoves b).isEmpty
  · have hne : r.legalMoves b ≠ [] := by
      intro h
      rw [h] at hemp
      exact absurd hemp (by simp)
    obtain ⟨mstar, hmem, hmax⟩ :=
      exists_max_unique (root_score r qf b 1) (r.legalMoves b) hne hdist
    have hlt : i32Min < root_score r qf b 1 mstar :=
      (root_score_bounds r qf hOG b 1 mstar).1
    have h1 : cList (root_score r qf b 1)
        (sortByKey (move_priority r b) (r.legalMoves b)) (none, i32Min) =
          some mstar := by
      refine cList_of_max _ _ mstar ((mem_sortByKey _ _ _).mpr hmem) ?_ none
        i32Min hlt
      intro m hm hne2
      exact hmax m ((mem_sortByKey _ _ _).mp hm) hne2
    have h2 : cList (plain_score r qf b 1) (r.legalMoves b) (none, i32Min) =
        some mstar := by
      rw [show plain_score r qf b 1 = root_score r qf b 1 from
        funext fun mv => (root_score_eq_plain_depth1 r qf b mv).symm]
      exact cList_of_max _ _ mstar hmem hmax none i32Min hlt
    simp only [hemp, Bool.false_eq_true, if_false]
    rw [h1, h2]
  · simp [hemp]

/-- Witness for C8's amended statement on `gameW` at depth 1 (root scores 0
and −1000000 are distinct; both choosers pick the stalemating move). -/
theorem choose_best_depth1_eq_plain_witness :
    choose_best_move_ab gameW 3 0 1 = choose_best_plain gameW 3 0 1 :=
  choose_best_depth1_eq_plain gameW 3 0 gameW_ongoing_moves (by decide)

/-- C10: move selection is deterministic — the AI step never consults the
ambient environment (random stream, wall clock), so two runs with the same
arguments and arbitrary environments return the same move, under every
difficulty setting. -/
theorem ai_select_move_deterministic {B : Type} (e1 e2 : Env) (r : Rules B)
    (qf : Nat) (b : B) (history : List Move) (diff : Difficulty) :
    ai_select_move_in e1 r qf b history diff =
      ai_select_move_in e2 r qf b history diff := rfl

end RustChessAi
